import Mathlib

/-!
Verification of the concurrency-and-state-synchronization layer of the
monetha/go-ethereum helper library, as a shallow embedding in Lean 4.

The embedding covers:
* `HandleNonceBackend` (backend/backend.go): a nonce-tracking decorator over a
  chain backend; calls to the inner backend are modelled by passing their
  result (`Except` value) as an explicit argument, and the `addressNonce`
  map is modelled as a function from addresses to optional watermarks.
* `GasPriceEstimator` (gasestimator/gaspriceestimator.go): a polled scalar
  cache with a one-shot close; the background goroutine's loop body and the
  close protocol are modelled as pure state transformers.
* `BlockSource` (blocksource/blocksource.go): the confirmation-gated block
  streamer; one iteration of the background loop is modelled as a step
  function over the cursor state, with the two RPC calls of an iteration
  (head-height query, block fetch) supplied as oracle arguments.
* `chunkTransactions` and the receipt-batching of `Client.getBlock`
  (client package).
-/

namespace MonethaEth

/-! ## Nonce-tracking backend: src/backend/backend.go -/

/-- Account addresses (`common.Address` in Go) are modelled as plain naturals;
only decidable equality of addresses is used by the code. -/
abbrev Addr := Nat

/-- Inner-backend errors are opaque values that the decorator passes through
unchanged; they are modelled as numeric codes. -/
abbrev ErrCode := Nat

/-- Modulus of Go's `uint64` type, used where the source performs `uint64`
arithmetic (the `tx.Nonce() + 1` increment). -/
def UINT64_MOD : Nat := 2 ^ 64

/-- The `addressNonce` map of `HandleNonceBackend`: watched accounts are the
addresses in the map's domain, each mapped to its stored nonce watermark. -/
abbrev NonceMap := Addr → Option Nat

/-- Map update `b.addressNonce[account] = nonce`. -/
def setNonce (st : NonceMap) (account : Addr) (nonce : Nat) : NonceMap :=
  fun x => if x = account then some nonce else st x

/-- Translation of `HandleNonceBackend.PendingNonceAt` (backend.go lines
67-85).  The result of the inner `PendingNonceAt` call is the explicit
argument `innerResult`; the function returns the value handed to the caller
together with the new `addressNonce` map. -/
def pendingNonceAt (st : NonceMap) (account : Addr) (innerResult : Except ErrCode Nat) :
    Except ErrCode Nat × NonceMap :=
  match innerResult with
  | .error e => (.error e, st)
  | .ok nonce =>
    match st account with
    | none => (.ok nonce, st)
    | some innerNonce =>
      if innerNonce < nonce then (.ok nonce, setNonce st account nonce)
      else (.ok innerNonce, st)

/-- The only transaction field the decorator reads is the nonce (`tx.Nonce()`,
a `uint64`). -/
structure Tx where
  nonce : Nat

/-- Translation of `HandleNonceBackend.incrementNonce` (backend.go lines
114-129).  Signer recovery (`types.Sender`) is modelled by the `recovered`
argument: `none` when recovery fails, `some from` on success.  The increment
`tx.Nonce() + 1` is `uint64` arithmetic and therefore taken modulo `2^64`. -/
def incrementNonce (st : NonceMap) (tx : Tx) (recovered : Option Addr) : NonceMap :=
  match recovered with
  | none => st
  | some frm =>
    match st frm with
    | none => st
    | some innerNonce =>
      if innerNonce < (tx.nonce + 1) % UINT64_MOD then
        setNonce st frm ((tx.nonce + 1) % UINT64_MOD)
      else st

/-- Translation of `HandleNonceBackend.SendTransaction` (backend.go lines
103-112).  The result of the inner `SendTransaction` call is the explicit
argument `innerResult`. -/
def sendTransaction (st : NonceMap) (tx : Tx) (innerResult : Except ErrCode Unit)
    (recovered : Option Addr) : Except ErrCode Unit × NonceMap :=
  match innerResult with
  | .error e => (.error e, st)
  | .ok _ => (.ok (), incrementNonce st tx recovered)

/-- One operation performed through the decorator, together with the
inner-backend behaviour observed during it.  The pure passthrough methods
(`CodeAt`, `CallContract`, `PendingCodeAt`, `SuggestGasPrice`, `EstimateGas`,
`TransactionReceipt`, `BalanceAt`, `FilterLogs`, `SubscribeFilterLogs`,
`TransactionByHash`) never touch `addressNonce` and are collapsed into a
single constructor. -/
inductive BackendOp where
  | pna (account : Addr) (innerResult : Except ErrCode Nat)
  | send (tx : Tx) (innerResult : Except ErrCode Unit) (recovered : Option Addr)
  | passthrough

/-- Effect of one decorator operation on the `addressNonce` map. -/
def stepOp (st : NonceMap) : BackendOp → NonceMap
  | .pna account innerResult => (pendingNonceAt st account innerResult).2
  | .send tx innerResult recovered => (sendTransaction st tx innerResult recovered).2
  | .passthrough => st

/-- A sequence of successful `PendingNonceAt` calls for a fixed account: given
the list of inner-backend nonce values, returns the list of nonces handed to
the caller and the final map. -/
def runPNA (st : NonceMap) (account : Addr) : List Nat → List Nat × NonceMap
  | [] => ([], st)
  | n :: ns =>
    let r := pendingNonceAt st account (.ok n)
    let v := match r.1 with | .ok v => v | .error _ => 0
    let rest := runPNA r.2 account ns
    (v :: rest.1, rest.2)

/-! ## Gas price estimator: src/gasestimator/gaspriceestimator.go -/

/-- One pass of the body of the `GasPriceEstimator.runAsync` loop after the
sleep: the result of `gasPricer.SuggestGasPrice` is the `fetch` argument.
Returns the new cached price and whether an error was logged.  On error the
cached value is kept and the loop continues; on success the cached value is
replaced only when it differs from the current one. -/
def gasBgIter (gasPrice : Int) (fetch : Except Unit Int) : Int × Bool :=
  match fetch with
  | .error _ => (gasPrice, true)
  | .ok newGasPrice => (if gasPrice = newGasPrice then gasPrice else newGasPrice, false)

namespace GasPriceEstimator

/-- Observable state of a `GasPriceEstimator`: the cached price, whether the
`closed` channel has been closed, and whether the background goroutine is
still running. -/
structure State where
  gasPrice : Int
  closed : Bool
  bgRunning : Bool
deriving DecidableEq

/-- Translation of `GasPriceEstimator.Close` (gaspriceestimator.go lines
55-63): `closeOnce` makes the body run at most once; its effect is that the
`closed` channel is closed and, after `wg.Wait()` returns, the background
goroutine has stopped.  Running the body a second time would change nothing,
so the modelled effect is the same for every call. -/
def close (st : State) : State :=
  { st with closed := true, bgRunning := false }

/-- Translation of `GasPriceEstimator.SuggestGasPrice` (lines 67-72): returns
a copy of the cached price, never an error. -/
def suggestGasPrice (st : State) : Int :=
  st.gasPrice

/-- One background-loop pass at the estimator level: the goroutine only runs
while it has not been stopped by `Close` (after `Close` returns, `wg.Wait()`
guarantees it performs no further pass). -/
def bgStep (st : State) (fetch : Except Unit Int) : State :=
  if st.bgRunning then { st with gasPrice := (gasBgIter st.gasPrice fetch).1 } else st

end GasPriceEstimator

/-! ## Block source: src/blocksource/blocksource.go -/

/-- Outcome of a `client.BlockByNumber` call: the not-found condition
(`ethereum.ErrNotFound`), any other error, or a block carrying its number. -/
inductive BlockResp where
  | notFound
  | fetchErr
  | found (number : Int)
deriving DecidableEq

/-- Cursor state of the background loop of `BlockSource.runAsync`:
`currBlkNumber`, `recentBlkNumber` (both `*big.Int`, `none` modelling `nil`)
and the `delayBeforeIteration` flag. -/
structure BSState where
  curr : Option Int
  recent : Option Int
  delay : Bool
deriving DecidableEq

/-- Translation of `needToGetMostRecentBlockNumber` (blocksource.go lines
143-151).  All block numbers are `big.Int` values, hence mathematical
integers. -/
def needToGetMostRecentBlockNumber (currentBlockNumber recentBlockNumber : Option Int)
    (confirmations : Int) : Bool :=
  decide (0 < confirmations) &&
    (match recentBlockNumber with
     | none => true
     | some r =>
       decide (r < confirmations) ||
       (match currentBlockNumber with
        | none => false
        | some c => decide (r < c + confirmations)))

/-- Lines 117-119 of blocksource.go: the block number actually passed to
`BlockByNumber` after the lazy initialization of `currBlkNumber` from
`recentBlkNumber - confirmations`. -/
def derivedCurr (confirmations : Int) (st : BSState) : Option Int :=
  match st.recent, st.curr with
  | some r, none => some (r - confirmations)
  | _, _ => st.curr

/-- Observable outcome of one iteration of the `runAsync` loop. -/
structure IterOut where
  state : BSState
  emitted : Option Int
  loggedErr : Bool
  queriedHead : Bool
  requested : Option (Option Int)

/-- Lines 117-138 of blocksource.go: initialize `currBlkNumber` if needed,
fetch the block at the current number, and either schedule a delayed retry
(not-found without logging, any other error with logging) or advance the
cursor to the fetched block's number plus one and deliver the block. -/
def fetchPhase (confirmations : Int) (st : BSState)
    (blkOracle : Option Int → BlockResp) (queried : Bool) : IterOut :=
  match blkOracle (derivedCurr confirmations st) with
  | .notFound =>
    ⟨{ st with curr := derivedCurr confirmations st, delay := true },
      none, false, queried, some (derivedCurr confirmations st)⟩
  | .fetchErr =>
    ⟨{ st with curr := derivedCurr confirmations st, delay := true },
      none, true, queried, some (derivedCurr confirmations st)⟩
  | .found num =>
    ⟨{ st with curr := some (num + 1), delay := false },
      some num, false, queried, some (derivedCurr confirmations st)⟩

/-- Translation of one iteration of the loop of `BlockSource.runAsync`
(blocksource.go lines 93-139).  The result of the `BlockNumber` RPC call is
the `head` argument; the `BlockByNumber` call is the `blkOracle` argument
(a response for each possible requested number, `none` = latest).  A failed
`BlockNumber` call assigns `nil` to `recentBlkNumber` (Go multiple
assignment) before the `continue`. -/
def stepIter (confirmations : Int) (st : BSState) (head : Except Unit Int)
    (blkOracle : Option Int → BlockResp) : IterOut :=
  if needToGetMostRecentBlockNumber st.curr st.recent confirmations then
    match head with
    | .error _ =>
      ⟨⟨st.curr, none, true⟩, none, true, true, none⟩
    | .ok h =>
      if needToGetMostRecentBlockNumber st.curr (some h) confirmations then
        ⟨⟨st.curr, some h, true⟩, none, false, true, none⟩
      else
        fetchPhase confirmations ⟨st.curr, some h, false⟩ blkOracle true
  else
    fetchPhase confirmations st blkOracle false

/-- A full run of the loop over a list of per-iteration RPC outcomes:
returns the final cursor state and the outcome of every iteration. -/
def runIters (confirmations : Int) (st : BSState) :
    List ((Except Unit Int) × (Option Int → BlockResp)) → BSState × List IterOut
  | [] => (st, [])
  | (h, o) :: rest =>
    ((runIters confirmations (stepIter confirmations st h o).state rest).1,
      stepIter confirmations st h o ::
        (runIters confirmations (stepIter confirmations st h o).state rest).2)

/-- The block numbers delivered on the output channel during a run. -/
def emissions (outs : List IterOut) : List Int :=
  outs.filterMap IterOut.emitted

/-- The node answers a `BlockByNumber` request for a specific number with a
block of that very number (it may also report not-found or an error). -/
def HonestOracle (f : Option Int → BlockResp) : Prop :=
  ∀ n m, f (some n) = BlockResp.found m → m = n

/-! ## RPC client receipt batching: src/unnamed/part_001 (package client) -/

/-- Translation of `chunkTransactions` (client package): splits the
transaction list into consecutive slices `txs[i:i+chunkSize]`.  The source
panics on a non-positive chunk size; that case is unreachable (the only call
site passes 500) and is mapped to the empty result. -/
def chunkTransactions {α : Type} : List α → Nat → List (List α)
  | _, 0 => []
  | [], _ + 1 => []
  | t :: ts, n + 1 =>
    ((t :: ts).take (n + 1)) :: chunkTransactions ((t :: ts).drop (n + 1)) (n + 1)
termination_by l _ => l.length
decreasing_by
  simp
  omega

/-! ## Concrete fixtures used by witnesses and counterexamples -/

/-- A watermark table watching exactly account `0`, with watermark `7`. -/
def exMap : NonceMap := fun a => if a = 0 then some 7 else none

/-- A watermark table watching exactly account `0`, with watermark `0`. -/
def cexSt : NonceMap := fun a => if a = 0 then some 0 else none

/-- A node that immediately serves every specifically-numbered block and has
not yet indexed the latest block. -/
def exOracle : Option Int → BlockResp
  | some n => BlockResp.found n
  | none => BlockResp.notFound

/-! ### Helper lemmas for the nonce backend -/

lemma setNonce_same (st : NonceMap) (a : Addr) (n : Nat) : setNonce st a n a = some n := by
  simp [setNonce]

lemma setNonce_other (st : NonceMap) (a x : Addr) (n : Nat) (h : x ≠ a) :
    setNonce st a n x = st x := by
  simp [setNonce, h]

/-- Characterization of a successful `PendingNonceAt` on a watched account:
the returned value and the new watermark are both `max innerValue watermark`. -/
lemma pendingNonceAt_ok_watched (st : NonceMap) (a : Addr) (n w : Nat)
    (hw : st a = some w) :
    pendingNonceAt st a (.ok n) = (.ok (max n w), setNonce st a (max n w)) := by
  by_cases h : w < n
  · have hm : max n w = n := Nat.max_eq_left (Nat.le_of_lt h)
    simp [pendingNonceAt, hw, h, hm]
  · have hle : n ≤ w := Nat.le_of_not_lt h
    have hm : max n w = w := Nat.max_eq_right hle
    have hst : st = setNonce st a w := by
      funext x
      by_cases hx : x = a
      · subst hx; simp [setNonce, hw]
      · simp [setNonce, hx]
    simp [pendingNonceAt, hw, h, hm, ← hst]

/-- Any single decorator operation leaves the watermark of a watched account
watched, and never decreases it. -/
lemma stepOp_mono (a : Addr) (st : NonceMap) (w : Nat) (hw : st a = some w)
    (op : BackendOp) : ∃ w', stepOp st op a = some w' ∧ w ≤ w' := by
  cases op with
  | passthrough => exact ⟨w, hw, Nat.le_refl w⟩
  | pna account innerResult =>
    cases innerResult with
    | error e => exact ⟨w, hw, Nat.le_refl w⟩
    | ok n =>
      cases hsa : st account with
      | none =>
        refine ⟨w, ?_, Nat.le_refl w⟩
        simp [stepOp, pendingNonceAt, hsa, hw]
      | some wa =>
        by_cases h : wa < n
        · by_cases hx : a = account
          · subst hx
            have hww : w = wa := by rw [hw] at hsa; exact Option.some.inj hsa
            subst hww
            refine ⟨n, ?_, Nat.le_of_lt h⟩
            simp [stepOp, pendingNonceAt, hsa, h, setNonce]
          · refine ⟨w, ?_, Nat.le_refl w⟩
            simp [stepOp, pendingNonceAt, hsa, h, setNonce, hx, hw]
        · refine ⟨w, ?_, Nat.le_refl w⟩
          simp [stepOp, pendingNonceAt, hsa, h, hw]
  | send tx innerResult recovered =>
    cases innerResult with
    | error e => exact ⟨w, hw, Nat.le_refl w⟩
    | ok u =>
      cases recovered with
      | none => exact ⟨w, hw, Nat.le_refl w⟩
      | some frm =>
        cases hsf : st frm with
        | none =>
          refine ⟨w, ?_, Nat.le_refl w⟩
          simp [stepOp, sendTransaction, incrementNonce, hsf, hw]
        | some wf =>
          by_cases h : wf < (tx.nonce + 1) % UINT64_MOD
          · by_cases hx : a = frm
            · subst hx
              have hww : w = wf := by rw [hw] at hsf; exact Option.some.inj hsf
              subst hww
              refine ⟨(tx.nonce + 1) % UINT64_MOD, ?_, Nat.le_of_lt h⟩
              simp [stepOp, sendTransaction, incrementNonce, hsf, h, setNonce]
            · refine ⟨w, ?_, Nat.le_refl w⟩
              simp [stepOp, sendTransaction, incrementNonce, hsf, h, setNonce, hx, hw]
          · refine ⟨w, ?_, Nat.le_refl w⟩
            simp [stepOp, sendTransaction, incrementNonce, hsf, h, hw]

/-- Watermark monotonicity over a whole sequence of decorator operations. -/
lemma foldOps_mono (a : Addr) : ∀ (ops : List BackendOp) (st : NonceMap) (w : Nat),
    st a = some w → ∃ w', List.foldl stepOp st ops a = some w' ∧ w ≤ w' := by
  intro ops
  induction ops with
  | nil => intro st w hw; exact ⟨w, hw, Nat.le_refl w⟩
  | cons op ops ih =>
    intro st w hw
    obtain ⟨w₁, hw₁, hle₁⟩ := stepOp_mono a st w hw op
    obtain ⟨w', hw', hle'⟩ := ih (stepOp st op) w₁ hw₁
    exact ⟨w', hw', Nat.le_trans hle₁ hle'⟩

/-- Returned nonces along a run of successful `PendingNonceAt` calls: each
return value dominates the inner value, and prefixing the initial watermark
keeps the whole output chain non-decreasing. -/
lemma runPNA_strong (a : Addr) : ∀ (ns : List Nat) (st : NonceMap) (w : Nat),
    st a = some w →
    List.Chain' (· ≤ ·) (w :: (runPNA st a ns).1) ∧
    List.Forall₂ (· ≤ ·) ns (runPNA st a ns).1 := by
  intro ns
  induction ns with
  | nil =>
    intro st w hw
    exact ⟨List.chain'_singleton w, List.Forall₂.nil⟩
  | cons n ns ih =>
    intro st w hw
    have hc := pendingNonceAt_ok_watched st a n w hw
    have hset : setNonce st a (max n w) a = some (max n w) := setNonce_same _ _ _
    have hrun : runPNA st a (n :: ns) =
        ((max n w) :: (runPNA (setNonce st a (max n w)) a ns).1,
          (runPNA (setNonce st a (max n w)) a ns).2) := by
      simp [runPNA, hc]
    obtain ⟨hchain, hfa⟩ := ih (setNonce st a (max n w)) (max n w) hset
    rw [hrun]
    constructor
    · exact List.chain'_cons.mpr ⟨Nat.le_max_right n w, hchain⟩
    · exact List.Forall₂.cons (Nat.le_max_left n w) hfa

/-! ### Helper lemmas for the gas price estimator -/

namespace GasPriceEstimator

lemma close_close (st : State) : close (close st) = close st := rfl

lemma close_bgRunning (st : State) : (close st).bgRunning = false := rfl

lemma bgStep_stopped (st : State) (fetch : Except Unit Int) (h : st.bgRunning = false) :
    bgStep st fetch = st := by
  simp [bgStep, h]

lemma foldl_bgStep_closed (st : State) :
    ∀ fetches : List (Except Unit Int),
      List.foldl bgStep (close st) fetches = close st := by
  intro fetches
  induction fetches with
  | nil => rfl
  | cons f fs ih =>
    rw [List.foldl_cons, bgStep_stopped _ _ (close_bgRunning st), ih]

end GasPriceEstimator

/-! ### Helper lemmas for the block source -/

lemma derivedCurr_of_curr_some (confirmations : Int) (st : BSState) (c : Int)
    (h : st.curr = some c) : derivedCurr confirmations st = some c := by
  cases hr : st.recent <;> simp [derivedCurr, hr, h]

lemma fetchPhase_recent (confirmations : Int) (st : BSState)
    (o : Option Int → BlockResp) (q : Bool) :
    (fetchPhase confirmations st o q).state.recent = st.recent := by
  cases hb : o (derivedCurr confirmations st) <;> simp [fetchPhase, hb]

lemma fetchPhase_queried (confirmations : Int) (st : BSState)
    (o : Option Int → BlockResp) (q : Bool) :
    (fetchPhase confirmations st o q).queriedHead = q := by
  cases hb : o (derivedCurr confirmations st) <;> simp [fetchPhase, hb]

lemma fetchPhase_emitted_curr (confirmations : Int) (st : BSState)
    (o : Option Int → BlockResp) (q : Bool) (e : Int)
    (he : (fetchPhase confirmations st o q).emitted = some e) :
    (fetchPhase confirmations st o q).state.curr = some (e + 1) := by
  cases hb : o (derivedCurr confirmations st) with
  | notFound => simp [fetchPhase, hb] at he
  | fetchErr => simp [fetchPhase, hb] at he
  | found num =>
    simp [fetchPhase, hb] at he ⊢
    omega

lemma fetchPhase_none_curr (confirmations : Int) (st : BSState)
    (o : Option Int → BlockResp) (q : Bool) (c : Int) (hc : st.curr = some c)
    (he : (fetchPhase confirmations st o q).emitted = none) :
    (fetchPhase confirmations st o q).state.curr = some c := by
  have hd := derivedCurr_of_curr_some confirmations st c hc
  cases hb : o (derivedCurr confirmations st) with
  | notFound => rw [hd] at hb; simp [fetchPhase, hd, hb]
  | fetchErr => rw [hd] at hb; simp [fetchPhase, hd, hb]
  | found num => simp [fetchPhase, hb] at he


lemma fetchPhase_emitted_honest (confirmations : Int) (st : BSState)
    (o : Option Int → BlockResp) (q : Bool) (c e : Int)
    (hon : HonestOracle o) (hc : st.curr = some c)
    (he : (fetchPhase confirmations st o q).emitted = some e) : e = c := by
  cases hb : o (derivedCurr confirmations st) with
  | notFound => simp [fetchPhase, hb] at he
  | fetchErr => simp [fetchPhase, hb] at he
  | found num =>
    simp [fetchPhase, hb] at he
    rw [derivedCurr_of_curr_some confirmations st c hc] at hb
    have := hon c num hb
    omega

/-- Dissection of a negative refresh decision when confirmations are
required: the cached head is known, at least as large as the confirmation
depth, and at confirmation distance from any known current number. -/
lemma needToGet_false (c r : Option Int) (confirmations : Int)
    (hconf : 0 < confirmations)
    (h : needToGetMostRecentBlockNumber c r confirmations = false) :
    ∃ rv, r = some rv ∧ confirmations ≤ rv ∧
      (∀ cv, c = some cv → cv + confirmations ≤ rv) := by
  rcases r with _ | rv
  · simp [needToGetMostRecentBlockNumber, hconf] at h
  · rcases c with _ | cv
    · simp [needToGetMostRecentBlockNumber, hconf] at h
      exact ⟨rv, rfl, h, by intro cv hcv; cases hcv⟩
    · simp [needToGetMostRecentBlockNumber, hconf] at h
      refine ⟨rv, rfl, h.1, ?_⟩
      intro cv' hcv'
      cases hcv'
      exact h.2

/-- A block emitted by the fetch phase under a negative refresh decision
satisfies the confirmation-depth bound with respect to the cached head. -/
lemma fetchPhase_emission_conf (confirmations : Int) (st : BSState)
    (o : Option Int → BlockResp) (q : Bool) (e : Int)
    (hconf : 0 < confirmations) (hon : HonestOracle o)
    (hng : needToGetMostRecentBlockNumber st.curr st.recent confirmations = false)
    (he : (fetchPhase confirmations st o q).emitted = some e) :
    ∃ rv, st.recent = some rv ∧ e + confirmations ≤ rv := by
  obtain ⟨rv, hrv, hge, hcurr⟩ := needToGet_false st.curr st.recent confirmations hconf hng
  cases hb : o (derivedCurr confirmations st) with
  | notFound => simp [fetchPhase, hb] at he
  | fetchErr => simp [fetchPhase, hb] at he
  | found num =>
    simp [fetchPhase, hb] at he
    refine ⟨rv, hrv, ?_⟩
    cases hc : st.curr with
    | none =>
      have hd : derivedCurr confirmations st = some (rv - confirmations) := by
        simp [derivedCurr, hrv, hc]
      rw [hd] at hb
      have := hon _ _ hb
      omega
    | some cv =>
      rw [derivedCurr_of_curr_some confirmations st cv hc] at hb
      have h1 := hon _ _ hb
      have h2 := hcurr cv hc
      omega

/-! ### Step-level lemmas for `stepIter` -/

/-- Unfolding equation: refresh needed, head query failed. -/
lemma stepIter_eq_headErr (confirmations : Int) (st : BSState) (u : Unit)
    (o : Option Int → BlockResp)
    (hng : needToGetMostRecentBlockNumber st.curr st.recent confirmations = true) :
    stepIter confirmations st (.error u) o =
      ⟨⟨st.curr, none, true⟩, none, true, true, none⟩ := by
  unfold stepIter
  rw [if_pos hng]

/-- Unfolding equation: refresh needed, head query succeeded. -/
lemma stepIter_eq_headOk (confirmations : Int) (st : BSState) (h : Int)
    (o : Option Int → BlockResp)
    (hng : needToGetMostRecentBlockNumber st.curr st.recent confirmations = true) :
    stepIter confirmations st (.ok h) o =
      if needToGetMostRecentBlockNumber st.curr (some h) confirmations = true then
        ⟨⟨st.curr, some h, true⟩, none, false, true, none⟩
      else fetchPhase confirmations ⟨st.curr, some h, false⟩ o true := by
  unfold stepIter
  rw [if_pos hng]

/-- Unfolding equation: no refresh needed. -/
lemma stepIter_eq_noRefresh (confirmations : Int) (st : BSState)
    (head : Except Unit Int) (o : Option Int → BlockResp)
    (hng : needToGetMostRecentBlockNumber st.curr st.recent confirmations = false) :
    stepIter confirmations st head o = fetchPhase confirmations st o false := by
  unfold stepIter
  rw [if_neg (by simp [hng])]

lemma stepIter_emitted_curr (confirmations : Int) (st : BSState)
    (head : Except Unit Int) (o : Option Int → BlockResp) (e : Int)
    (he : (stepIter confirmations st head o).emitted = some e) :
    (stepIter confirmations st head o).state.curr = some (e + 1) := by
  by_cases hng : needToGetMostRecentBlockNumber st.curr st.recent confirmations = true
  · cases head with
    | error u => rw [stepIter_eq_headErr confirmations st u o hng] at he; simp at he
    | ok h =>
      rw [stepIter_eq_headOk confirmations st h o hng] at he ⊢
      by_cases hng2 : needToGetMostRecentBlockNumber st.curr (some h) confirmations = true
      · rw [if_pos hng2] at he; simp at he
      · rw [if_neg hng2] at he ⊢
        exact fetchPhase_emitted_curr confirmations ⟨st.curr, some h, false⟩ o true e he
  · have hng' := (Bool.not_eq_true _).mp hng
    rw [stepIter_eq_noRefresh confirmations st head o hng'] at he ⊢
    exact fetchPhase_emitted_curr confirmations st o false e he

lemma stepIter_none_curr (confirmations : Int) (st : BSState)
    (head : Except Unit Int) (o : Option Int → BlockResp) (c : Int)
    (hc : st.curr = some c)
    (he : (stepIter confirmations st head o).emitted = none) :
    (stepIter confirmations st head o).state.curr = some c := by
  by_cases hng : needToGetMostRecentBlockNumber st.curr st.recent confirmations = true
  · cases head with
    | error u => rw [stepIter_eq_headErr confirmations st u o hng]; exact hc
    | ok h =>
      rw [stepIter_eq_headOk confirmations st h o hng] at he ⊢
      by_cases hng2 : needToGetMostRecentBlockNumber st.curr (some h) confirmations = true
      · rw [if_pos hng2]; exact hc
      · rw [if_neg hng2] at he ⊢
        exact fetchPhase_none_curr confirmations ⟨st.curr, some h, false⟩ o true c hc he
  · have hng' := (Bool.not_eq_true _).mp hng
    rw [stepIter_eq_noRefresh confirmations st head o hng'] at he ⊢
    exact fetchPhase_none_curr confirmations st o false c hc he

lemma stepIter_emitted_honest (confirmations : Int) (st : BSState)
    (head : Except Unit Int) (o : Option Int → BlockResp) (c e : Int)
    (hon : HonestOracle o) (hc : st.curr = some c)
    (he : (stepIter confirmations st head o).emitted = some e) : e = c := by
  by_cases hng : needToGetMostRecentBlockNumber st.curr st.recent confirmations = true
  · cases head with
    | error u => rw [stepIter_eq_headErr confirmations st u o hng] at he; simp at he
    | ok h =>
      rw [stepIter_eq_headOk confirmations st h o hng] at he
      by_cases hng2 : needToGetMostRecentBlockNumber st.curr (some h) confirmations = true
      · rw [if_pos hng2] at he; simp at he
      · rw [if_neg hng2] at he
        exact fetchPhase_emitted_honest confirmations ⟨st.curr, some h, false⟩ o true c e
          hon hc he
  · have hng' := (Bool.not_eq_true _).mp hng
    rw [stepIter_eq_noRefresh confirmations st head o hng'] at he
    exact fetchPhase_emitted_honest confirmations st o false c e hon hc he

lemma stepIter_emission_conf (confirmations : Int) (st : BSState)
    (head : Except Unit Int) (o : Option Int → BlockResp) (e : Int)
    (hconf : 0 < confirmations) (hon : HonestOracle o)
    (he : (stepIter confirmations st head o).emitted = some e) :
    ∃ rv, (stepIter confirmations st head o).state.recent = some rv ∧
      e + confirmations ≤ rv := by
  by_cases hng : needToGetMostRecentBlockNumber st.curr st.recent confirmations = true
  · cases head with
    | error u => rw [stepIter_eq_headErr confirmations st u o hng] at he; simp at he
    | ok h =>
      rw [stepIter_eq_headOk confirmations st h o hng] at he ⊢
      by_cases hng2 : needToGetMostRecentBlockNumber st.curr (some h) confirmations = true
      · rw [if_pos hng2] at he; simp at he
      · rw [if_neg hng2] at he ⊢
        have hng2' := (Bool.not_eq_true _).mp hng2
        have := fetchPhase_emission_conf confirmations ⟨st.curr, some h, false⟩ o true e
          hconf hon hng2' he
        rw [fetchPhase_recent]
        exact this
  · have hng' := (Bool.not_eq_true _).mp hng
    rw [stepIter_eq_noRefresh confirmations st head o hng'] at he ⊢
    have := fetchPhase_emission_conf confirmations st o false e hconf hon hng' he
    rw [fetchPhase_recent]
    exact this

/-! ### Run-level lemmas for the block source -/

/-- The sequence of emitted block numbers in any run is strictly increasing,
and bounded below by any known current number at the start of the run. -/
lemma runIters_chain (confirmations : Int) :
    ∀ (inputs : List ((Except Unit Int) × (Option Int → BlockResp))) (st : BSState),
      (∀ p ∈ inputs, HonestOracle p.2) →
      List.Chain' (· < ·) (emissions (runIters confirmations st inputs).2) ∧
      (∀ c, st.curr = some c →
        ∀ e ∈ emissions (runIters confirmations st inputs).2, c ≤ e) := by
  intro inputs
  induction inputs with
  | nil =>
    intro st hhon
    simp [runIters, emissions]
  | cons p rest ih =>
    obtain ⟨hd, o⟩ := p
    intro st hhon
    have hono : HonestOracle o := hhon (hd, o) (List.mem_cons_self _ _)
    have hrest : ∀ q ∈ rest, HonestOracle q.2 := fun q hq => hhon q (List.mem_cons_of_mem _ hq)
    obtain ⟨ihc, ihb⟩ := ih (stepIter confirmations st hd o).state hrest
    cases hout : (stepIter confirmations st hd o).emitted with
    | none =>
      have hemis : emissions (runIters confirmations st ((hd, o) :: rest)).2 =
          emissions (runIters confirmations (stepIter confirmations st hd o).state rest).2 := by
        simp [runIters, emissions, List.filterMap_cons, hout]
      rw [hemis]
      refine ⟨ihc, ?_⟩
      intro c hc e he
      exact ihb c (stepIter_none_curr confirmations st hd o c hc hout) e he
    | some e0 =>
      have hemis : emissions (runIters confirmations st ((hd, o) :: rest)).2 =
          e0 :: emissions (runIters confirmations (stepIter confirmations st hd o).state rest).2 := by
        simp [runIters, emissions, List.filterMap_cons, hout]
      rw [hemis]
      have hcurr' := stepIter_emitted_curr confirmations st hd o e0 hout
      have hbound := ihb (e0 + 1) hcurr'
      constructor
      · refine List.chain'_cons'.mpr ⟨?_, ihc⟩
        intro b hb
        have hbmem := List.mem_of_mem_head? hb
        have := hbound b hbmem
        omega
      · intro c hc e he
        have he0c := stepIter_emitted_honest confirmations st hd o c e0 hono hc hout
        rcases List.mem_cons.mp he with rfl | hmem
        · omega
        · have := hbound e hmem
          omega

/-- With a non-positive confirmation count the refresh decision is never
taken. -/
lemma needToGet_nonpos (c r : Option Int) (confirmations : Int)
    (h : confirmations ≤ 0) :
    needToGetMostRecentBlockNumber c r confirmations = false := by
  have hn : ¬ (0 < confirmations) := by omega
  simp [needToGetMostRecentBlockNumber, hn]

lemma fetchPhase_requested (confirmations : Int) (st : BSState)
    (o : Option Int → BlockResp) (q : Bool) :
    (fetchPhase confirmations st o q).requested = some (derivedCurr confirmations st) := by
  cases hb : o (derivedCurr confirmations st) <;> simp [fetchPhase, hb]

lemma fetchPhase_none_curr_eq (confirmations : Int) (st : BSState)
    (o : Option Int → BlockResp) (q : Bool)
    (he : (fetchPhase confirmations st o q).emitted = none) :
    (fetchPhase confirmations st o q).state.curr = derivedCurr confirmations st := by
  cases hb : o (derivedCurr confirmations st) with
  | notFound => simp [fetchPhase, hb]
  | fetchErr => simp [fetchPhase, hb]
  | found num => simp [fetchPhase, hb] at he

lemma derivedCurr_of_recent_none (confirmations : Int) (st : BSState)
    (h : st.recent = none) : derivedCurr confirmations st = st.curr := by
  cases hc : st.curr <;> simp [derivedCurr, h, hc]

/-- With a non-positive confirmation count no iteration of a run ever
queries the chain head. -/
lemma runIters_noHeadQuery (confirmations : Int) (hle : confirmations ≤ 0) :
    ∀ (inputs : List ((Except Unit Int) × (Option Int → BlockResp))) (st : BSState),
      ∀ out ∈ (runIters confirmations st inputs).2, out.queriedHead = false := by
  intro inputs
  induction inputs with
  | nil =>
    intro st out hout
    simp [runIters] at hout
  | cons p rest ih =>
    obtain ⟨hd, o⟩ := p
    intro st out hout
    simp only [runIters, List.mem_cons] at hout
    rcases hout with rfl | hmem
    · rw [stepIter_eq_noRefresh confirmations st hd o
        (needToGet_nonpos st.curr st.recent confirmations hle)]
      exact fetchPhase_queried confirmations st o false
    · exact ih (stepIter confirmations st hd o).state out hmem

/-! ### Helper lemmas for receipt batching -/

lemma chunkTransactions_nil {α : Type} (n : Nat) :
    chunkTransactions ([] : List α) n = [] := by
  cases n with
  | zero => rw [chunkTransactions]
  | succ m => rw [chunkTransactions]

/-- Concatenating the chunks restores the original transaction list. -/
lemma chunkTransactions_flatten {α : Type} :
    ∀ (N : Nat) (txs : List α), txs.length ≤ N →
      ∀ n : Nat, (chunkTransactions txs (n + 1)).flatten = txs := by
  intro N
  induction N with
  | zero =>
    intro txs h n
    have : txs = [] := List.eq_nil_of_length_eq_zero (Nat.le_zero.mp h)
    subst this
    simp [chunkTransactions_nil]
  | succ N ih =>
    intro txs h n
    match txs with
    | [] => simp [chunkTransactions_nil]
    | t :: ts =>
      rw [chunkTransactions]
      have hlen : ((t :: ts).drop (n + 1)).length ≤ N := by
        simp only [List.length_drop, List.length_cons]
        simp only [List.length_cons] at h
        omega
      rw [List.flatten_cons, ih ((t :: ts).drop (n + 1)) hlen n]
      exact List.take_append_drop (n + 1) (t :: ts)

/-- Every chunk has at most `chunkSize` elements. -/
lemma chunkTransactions_length_le {α : Type} :
    ∀ (N : Nat) (txs : List α), txs.length ≤ N →
      ∀ n : Nat, ∀ l ∈ chunkTransactions txs (n + 1), l.length ≤ n + 1 := by
  intro N
  induction N with
  | zero =>
    intro txs h n l hl
    have : txs = [] := List.eq_nil_of_length_eq_zero (Nat.le_zero.mp h)
    subst this
    simp [chunkTransactions_nil] at hl
  | succ N ih =>
    intro txs h n l hl
    match txs with
    | [] => simp [chunkTransactions_nil] at hl
    | t :: ts =>
      rw [chunkTransactions] at hl
      rcases List.mem_cons.mp hl with rfl | hmem
      · simp [List.length_take]
      · have hlen : ((t :: ts).drop (n + 1)).length ≤ N := by
          simp only [List.length_drop, List.length_cons]
          simp only [List.length_cons] at h
          omega
        exact ih ((t :: ts).drop (n + 1)) hlen n l hmem

/-- Every chunk other than (possibly) the last has exactly `chunkSize`
elements. -/
lemma chunkTransactions_full {α : Type} :
    ∀ (N : Nat) (txs : List α), txs.length ≤ N →
      ∀ n : Nat, ∀ l ∈ (chunkTransactions txs (n + 1)).dropLast, l.length = n + 1 := by
  intro N
  induction N with
  | zero =>
    intro txs h n l hl
    have : txs = [] := List.eq_nil_of_length_eq_zero (Nat.le_zero.mp h)
    subst this
    simp [chunkTransactions_nil] at hl
  | succ N ih =>
    intro txs h n l hl
    match txs with
    | [] => simp [chunkTransactions_nil] at hl
    | t :: ts =>
      have hlen : ((t :: ts).drop (n + 1)).length ≤ N := by
        simp only [List.length_drop, List.length_cons]
        simp only [List.length_cons] at h
        omega
      rw [chunkTransactions] at hl
      cases hrest : chunkTransactions ((t :: ts).drop (n + 1)) (n + 1) with
      | nil => rw [hrest] at hl; simp at hl
      | cons c cs =>
        rw [hrest] at hl
        rw [List.dropLast_cons_of_ne_nil (by simp)] at hl
        rcases List.mem_cons.mp hl with rfl | hmem
        · have hne : (t :: ts).drop (n + 1) ≠ [] := by
            intro hdrop
            rw [hdrop, chunkTransactions_nil] at hrest
            cases hrest
          have hlong : n + 1 ≤ (t :: ts).length := by
            by_contra hshort
            exact hne (List.drop_eq_nil_of_le (by omega))
          simp only [List.length_take, List.length_cons]
          simp only [List.length_cons] at hlong
          omega
        · have := ih ((t :: ts).drop (n + 1)) hlen n l
          rw [hrest] at this
          exact this hmem

/-! ## Claim theorems -/

/-- C1: on a successful inner `PendingNonceAt` call, `HandleNonceBackend.PendingNonceAt`
returns the inner value verbatim (and changes nothing) for an account outside the
watched set; for a watched account with stored watermark `w` it returns
`max innerValue w`, raises the watermark to `innerValue` when `innerValue > w`,
and leaves the table unchanged otherwise. -/
theorem pendingNonceAt_correct (st : NonceMap) (a : Addr) (n : Nat) :
    (st a = none → pendingNonceAt st a (.ok n) = (.ok n, st)) ∧
    (∀ w, st a = some w →
      (pendingNonceAt st a (.ok n)).1 = .ok (max n w) ∧
      (w < n → (pendingNonceAt st a (.ok n)).2 a = some n) ∧
      (n ≤ w → (pendingNonceAt st a (.ok n)).2 = st)) := by
  constructor
  · intro hnone
    simp [pendingNonceAt, hnone]
  · intro w hw
    have hc := pendingNonceAt_ok_watched st a n w hw
    refine ⟨?_, ?_, ?_⟩
    · rw [hc]
    · intro hlt
      rw [hc]
      simp [setNonce, Nat.max_eq_left (Nat.le_of_lt hlt)]
    · intro hle
      simp [pendingNonceAt, hw, Nat.not_lt.mpr hle]

/-- Witness for C1 at a concrete table watching account 0 with watermark 7. -/
theorem pendingNonceAt_correct_witness :
    pendingNonceAt exMap 1 (.ok 5) = (.ok 5, exMap) ∧
    (pendingNonceAt exMap 0 (.ok 9)).1 = .ok (max 9 7) ∧
    (pendingNonceAt exMap 0 (.ok 9)).2 0 = some 9 ∧
    (pendingNonceAt exMap 0 (.ok 3)).2 = exMap :=
  ⟨(pendingNonceAt_correct exMap 1 5).1 rfl,
   ((pendingNonceAt_correct exMap 0 9).2 7 rfl).1,
   ((pendingNonceAt_correct exMap 0 9).2 7 rfl).2.1 (by decide),
   ((pendingNonceAt_correct exMap 0 3).2 7 rfl).2.2 (by decide)⟩

/-- C2 counterexample: at `tx.nonce = 2^64 - 1` the `uint64` increment
`tx.Nonce() + 1` wraps to `0`, so a successful send from watched account 0 with
stored watermark 0 leaves the watermark at 0 instead of raising it to
`max 0 (tx.nonce + 1)`, and the immediately following `PendingNonceAt` returns
the inner value 5, which is smaller than `tx.nonce + 1`. -/
theorem sendTransaction_overflow_counterexample :
    ((sendTransaction cexSt ⟨UINT64_MOD - 1⟩ (.ok ()) (some 0)).2) 0 = some 0 ∧
    (pendingNonceAt ((sendTransaction cexSt ⟨UINT64_MOD - 1⟩ (.ok ()) (some 0)).2)
        0 (.ok 5)).1 = .ok 5 ∧
    ¬ ((UINT64_MOD - 1) + 1 ≤ 5) :=
  ⟨rfl, rfl, by decide⟩

/-- C2 (amended with the overflow-free side condition `tx.nonce + 1 < 2^64`):
after a successful inner send whose signer is recovered as the watched account
`a`, the watermark of `a` becomes `max storedWatermark (tx.nonce + 1)`; an
immediately following successful `PendingNonceAt a` returns a value
`≥ tx.nonce + 1` whatever nonce the inner backend still reports; and a further
successful send from `a` with a smaller nonce changes nothing. -/
theorem sendTransaction_raises_watermark (st : NonceMap) (tx : Tx) (a : Addr) (w : Nat)
    (hw : st a = some w) (hn : tx.nonce + 1 < UINT64_MOD) :
    ((sendTransaction st tx (.ok ()) (some a)).2) a = some (max w (tx.nonce + 1)) ∧
    (∀ m, ∃ v,
      (pendingNonceAt ((sendTransaction st tx (.ok ()) (some a)).2) a (.ok m)).1 = .ok v ∧
      tx.nonce + 1 ≤ v) ∧
    (∀ tx2 : Tx, tx2.nonce < tx.nonce →
      sendTransaction ((sendTransaction st tx (.ok ()) (some a)).2) tx2 (.ok ()) (some a)
        = (.ok (), (sendTransaction st tx (.ok ()) (some a)).2)) := by
  have hmod : (tx.nonce + 1) % UINT64_MOD = tx.nonce + 1 := Nat.mod_eq_of_lt hn
  have hst' : ((sendTransaction st tx (.ok ()) (some a)).2) a = some (max w (tx.nonce + 1)) := by
    by_cases h : w < tx.nonce + 1
    · simp [sendTransaction, incrementNonce, hw, hmod, h, setNonce,
        Nat.max_eq_right (Nat.le_of_lt h)]
    · have hle := Nat.le_of_not_lt h
      simp [sendTransaction, incrementNonce, hw, hmod, h, Nat.max_eq_left hle]
  refine ⟨hst', ?_, ?_⟩
  · intro m
    have hpna := pendingNonceAt_ok_watched _ a m (max w (tx.nonce + 1)) hst'
    refine ⟨max m (max w (tx.nonce + 1)), by rw [hpna], ?_⟩
    exact Nat.le_trans (Nat.le_max_right w (tx.nonce + 1)) (Nat.le_max_right m _)
  · intro tx2 hlt
    have hmod2 : (tx2.nonce + 1) % UINT64_MOD = tx2.nonce + 1 :=
      Nat.mod_eq_of_lt (by omega)
    have hnotlt : ¬ (max w (tx.nonce + 1) < tx2.nonce + 1) := by
      have hmx := Nat.le_max_right w (tx.nonce + 1)
      omega
    generalize hgen : (sendTransaction st tx (Except.ok ()) (some a)).2 = st₂ at hst' ⊢
    simp [sendTransaction, incrementNonce, hst', hmod2, hnotlt]

/-- Witness for the amended C2 at watermark 7 and `tx.nonce = 10`. -/
theorem sendTransaction_raises_watermark_witness :
    ((sendTransaction exMap ⟨10⟩ (.ok ()) (some 0)).2) 0 = some (max 7 (10 + 1)) ∧
    (∃ v, (pendingNonceAt ((sendTransaction exMap ⟨10⟩ (.ok ()) (some 0)).2)
        0 (.ok 10)).1 = .ok v ∧ 10 + 1 ≤ v) ∧
    sendTransaction ((sendTransaction exMap ⟨10⟩ (.ok ()) (some 0)).2) ⟨4⟩ (.ok ()) (some 0)
      = (.ok (), (sendTransaction exMap ⟨10⟩ (.ok ()) (some 0)).2) :=
  ⟨(sendTransaction_raises_watermark exMap ⟨10⟩ 0 7 rfl (by decide)).1,
   (sendTransaction_raises_watermark exMap ⟨10⟩ 0 7 rfl (by decide)).2.1 10,
   (sendTransaction_raises_watermark exMap ⟨10⟩ 0 7 rfl (by decide)).2.2 ⟨4⟩ (by decide)⟩

/-- C3: the stored watermark of a watched account never decreases across any
sequence of decorator operations (nonce queries, sends, pure passthroughs); and
along a run of successful `PendingNonceAt` calls with non-decreasing inner
values the returned nonces are non-decreasing and each dominates the inner
value of its call. -/
theorem watermark_monotone (a : Addr) :
    (∀ (ops : List BackendOp) (st : NonceMap) (w : Nat), st a = some w →
      ∃ w', List.foldl stepOp st ops a = some w' ∧ w ≤ w') ∧
    (∀ (st : NonceMap) (w : Nat) (ns : List Nat), st a = some w →
      List.Chain' (· ≤ ·) ns →
      List.Chain' (· ≤ ·) (runPNA st a ns).1 ∧
      List.Forall₂ (· ≤ ·) ns (runPNA st a ns).1) := by
  constructor
  · exact fun ops st w hw => foldOps_mono a ops st w hw
  · intro st w ns hw _hns
    obtain ⟨hchain, hfa⟩ := runPNA_strong a ns st w hw
    exact ⟨hchain.tail, hfa⟩

/-- Witness for C3 on a two-query run and a mixed operation sequence. -/
theorem watermark_monotone_witness :
    (∃ w', List.foldl stepOp exMap
        [BackendOp.pna 0 (Except.ok 9), BackendOp.passthrough,
          BackendOp.send ⟨20⟩ (Except.ok ()) (some 0)] 0 = some w' ∧ 7 ≤ w') ∧
    (List.Chain' (· ≤ ·) (runPNA exMap 0 [8, 9]).1 ∧
      List.Forall₂ (· ≤ ·) [8, 9] (runPNA exMap 0 [8, 9]).1) :=
  ⟨(watermark_monotone 0).1
      [BackendOp.pna 0 (Except.ok 9), BackendOp.passthrough,
        BackendOp.send ⟨20⟩ (Except.ok ()) (some 0)] exMap 7 rfl,
   (watermark_monotone 0).2 exMap 7 [8, 9] rfl (by simp [List.chain'_cons])⟩

/-- C4: when the inner call fails, `PendingNonceAt` and `SendTransaction` both
return the inner error unchanged and leave the whole watermark table exactly as
it was, for every account and every table. -/
theorem inner_error_leaves_state_unchanged (st : NonceMap) (a : Addr) (e : ErrCode)
    (tx : Tx) (recovered : Option Addr) :
    pendingNonceAt st a (.error e) = (.error e, st) ∧
    sendTransaction st tx (.error e) recovered = (.error e, st) :=
  ⟨rfl, rfl⟩

lemma exOracle_honest : HonestOracle exOracle := by
  intro n m h
  simp [exOracle] at h
  omega

/-- C5: in every run of the block-source loop against a node that answers each
specifically-numbered block request with a block of that number, the emitted
block numbers are strictly increasing; after an emission the cursor equals the
emitted number plus one; and, when confirmations are required, the head height
cached at the time of the fetch decision is at least the emitted number plus
the confirmation count. -/
theorem blockSource_emission_invariants (confirmations : Int) (st : BSState)
    (inputs : List ((Except Unit Int) × (Option Int → BlockResp)))
    (hhon : ∀ p ∈ inputs, HonestOracle p.2) :
    List.Chain' (· < ·) (emissions (runIters confirmations st inputs).2) ∧
    (∀ (head : Except Unit Int) (o : Option Int → BlockResp) (e : Int),
      (stepIter confirmations st head o).emitted = some e →
      (stepIter confirmations st head o).state.curr = some (e + 1) ∧
      (HonestOracle o → 0 < confirmations →
        ∃ rv, (stepIter confirmations st head o).state.recent = some rv ∧
          e + confirmations ≤ rv)) := by
  refine ⟨(runIters_chain confirmations inputs st hhon).1, ?_⟩
  intro head o e he
  exact ⟨stepIter_emitted_curr confirmations st head o e he,
    fun hon hconf => stepIter_emission_conf confirmations st head o e hconf hon he⟩

/-- Witness for C5: one iteration with confirmation depth 1, head height 10,
start cursor 0. -/
theorem blockSource_emission_invariants_witness :
    List.Chain' (· < ·)
      (emissions (runIters 1 ⟨some 0, none, false⟩ [(Except.ok 10, exOracle)]).2) ∧
    (stepIter 1 ⟨some 0, none, false⟩ (Except.ok 10) exOracle).state.curr = some (0 + 1) :=
  ⟨(blockSource_emission_invariants 1 ⟨some 0, none, false⟩ [(Except.ok 10, exOracle)]
      (by intro p hp; rcases List.mem_singleton.mp hp with rfl; exact exOracle_honest)).1,
   ((blockSource_emission_invariants 1 ⟨some 0, none, false⟩ [(Except.ok 10, exOracle)]
      (by intro p hp; rcases List.mem_singleton.mp hp with rfl; exact exOracle_honest)).2
      (Except.ok 10) exOracle 0 rfl).1⟩

/-- C6: the refresh decision of the block-source loop is positive exactly when
the confirmation count is positive and the cached head is unknown, smaller than
the confirmation count, or within the confirmation window of a known current
number; with zero confirmations it is always negative. -/
theorem needToGetMostRecentBlockNumber_spec (c r : Option Int) (confirmations : Int) :
    (needToGetMostRecentBlockNumber c r confirmations = true ↔
      (0 < confirmations ∧
        (r = none ∨ ∃ rv, r = some rv ∧
          (rv < confirmations ∨ ∃ cv, c = some cv ∧ rv < cv + confirmations)))) ∧
    (confirmations = 0 → needToGetMostRecentBlockNumber c r confirmations = false) := by
  constructor
  · rcases r with _ | rv
    · rcases c with _ | cv <;> simp [needToGetMostRecentBlockNumber]
    · rcases c with _ | cv <;> simp [needToGetMostRecentBlockNumber]
  · intro h0
    subst h0
    exact needToGet_nonpos c r 0 (Int.le_refl 0)

/-- Witness for C6: with zero confirmations the decision is negative even with
an unknown head. -/
theorem needToGetMostRecentBlockNumber_spec_witness :
    needToGetMostRecentBlockNumber (some 3) none 0 = false :=
  (needToGetMostRecentBlockNumber_spec (some 3) none 0).2 rfl

/-- C7 counterexample: the loop state does change on a failing iteration. A
failed head query overwrites the cached head height with nil (Go multiple
assignment `recentBlkNumber, err = ...`), here clearing a cached head of 5; and
a failing block fetch can move the cursor, here from unset to 2 after the lazy
initialization `head - confirmations` in the same iteration. -/
theorem background_fetch_state_change_counterexample :
    (stepIter 1 ⟨some 5, some 5, false⟩ (.error ()) (fun _ => BlockResp.notFound)).state.recent
        = none ∧
    (⟨some 5, some 5, false⟩ : BSState).recent = some 5 ∧
    (stepIter 1 ⟨none, none, false⟩ (.ok 3) (fun _ => BlockResp.fetchErr)).state.curr
        = some 2 ∧
    (⟨none, none, false⟩ : BSState).curr = none :=
  ⟨rfl, rfl, rfl, rfl⟩

/-- C7 (amended): every background fetch error is invisible to consumers — the
iteration emits nothing, schedules a delayed retry and the loop continues.  A
failed head query keeps the cursor but clears the cached head height and is
logged; a block fetch answered with not-found retries without logging while any
other block-fetch error retries with logging, both keeping the cached head and
moving the cursor only to its lazily-initialized value; a failed gas-price
fetch keeps the cached price and is logged. -/
theorem background_fetch_error_handling (confirmations : Int) (st : BSState) :
    (∀ (u : Unit) (o : Option Int → BlockResp),
      needToGetMostRecentBlockNumber st.curr st.recent confirmations = true →
      (stepIter confirmations st (.error u) o).emitted = none ∧
      (stepIter confirmations st (.error u) o).loggedErr = true ∧
      (stepIter confirmations st (.error u) o).state.curr = st.curr ∧
      (stepIter confirmations st (.error u) o).state.recent = none ∧
      (stepIter confirmations st (.error u) o).state.delay = true) ∧
    (∀ (o : Option Int → BlockResp) (q : Bool),
      o (derivedCurr confirmations st) = BlockResp.notFound →
      (fetchPhase confirmations st o q).emitted = none ∧
      (fetchPhase confirmations st o q).loggedErr = false ∧
      (fetchPhase confirmations st o q).state.curr = derivedCurr confirmations st ∧
      (fetchPhase confirmations st o q).state.recent = st.recent ∧
      (fetchPhase confirmations st o q).state.delay = true) ∧
    (∀ (o : Option Int → BlockResp) (q : Bool),
      o (derivedCurr confirmations st) = BlockResp.fetchErr →
      (fetchPhase confirmations st o q).emitted = none ∧
      (fetchPhase confirmations st o q).loggedErr = true ∧
      (fetchPhase confirmations st o q).state.curr = derivedCurr confirmations st ∧
      (fetchPhase confirmations st o q).state.recent = st.recent ∧
      (fetchPhase confirmations st o q).state.delay = true) ∧
    (∀ (gasPrice : Int) (u : Unit),
      (gasBgIter gasPrice (.error u)).1 = gasPrice ∧
      (gasBgIter gasPrice (.error u)).2 = true) := by
  refine ⟨?_, ?_, ?_, ?_⟩
  · intro u o hng
    rw [stepIter_eq_headErr confirmations st u o hng]
    exact ⟨rfl, rfl, rfl, rfl, rfl⟩
  · intro o q hb
    simp [fetchPhase, hb]
  · intro o q hb
    simp [fetchPhase, hb]
  · intro gasPrice u
    exact ⟨rfl, rfl⟩

/-- Witness for the amended C7 at concrete loop states. -/
theorem background_fetch_error_handling_witness :
    (stepIter 1 ⟨some 5, some 5, false⟩ (.error ()) (fun _ => BlockResp.notFound)).state.curr
        = (⟨some 5, some 5, false⟩ : BSState).curr ∧
    (fetchPhase 1 ⟨some 5, some 5, false⟩ (fun _ => BlockResp.notFound) false).loggedErr
        = false ∧
    (fetchPhase 1 ⟨some 5, some 5, false⟩ (fun _ => BlockResp.fetchErr) false).loggedErr
        = true ∧
    (gasBgIter 42 (.error ())).1 = 42 :=
  ⟨((background_fetch_error_handling 1 ⟨some 5, some 5, false⟩).1 ()
      (fun _ => BlockResp.notFound) rfl).2.2.1,
   ((background_fetch_error_handling 1 ⟨some 5, some 5, false⟩).2.1
      (fun _ => BlockResp.notFound) false rfl).2.1,
   ((background_fetch_error_handling 1 ⟨some 5, some 5, false⟩).2.2.1
      (fun _ => BlockResp.fetchErr) false rfl).2.1,
   ((background_fetch_error_handling 1 ⟨some 5, some 5, false⟩).2.2.2 42 ()).1⟩

/-- C8: `Close` is idempotent — any positive number of calls has the effect of
one — and after a close every read returns the price cached at close time, no
matter what the (now stopped) background loop would have gone on to fetch. -/
theorem gasPriceEstimator_close_idempotent (st : GasPriceEstimator.State) (n : Nat)
    (hn : 1 ≤ n) (fetches : List (Except Unit Int)) :
    GasPriceEstimator.close^[n] st = GasPriceEstimator.close st ∧
    GasPriceEstimator.suggestGasPrice
      (List.foldl GasPriceEstimator.bgStep (GasPriceEstimator.close st) fetches)
      = st.gasPrice := by
  constructor
  · obtain ⟨k, rfl⟩ : ∃ k, n = k + 1 := ⟨n - 1, by omega⟩
    rw [Function.iterate_succ_apply]
    induction k with
    | zero => rfl
    | succ k ih =>
      rw [Function.iterate_succ_apply, GasPriceEstimator.close_close]
      exact ih (by omega)
  · rw [GasPriceEstimator.foldl_bgStep_closed]
    rfl

/-- Witness for C8: two closes equal one, and a read after close ignores a
pending fetch result. -/
theorem gasPriceEstimator_close_idempotent_witness :
    GasPriceEstimator.close^[2] ⟨7, false, true⟩ = GasPriceEstimator.close ⟨7, false, true⟩ ∧
    GasPriceEstimator.suggestGasPrice
      (List.foldl GasPriceEstimator.bgStep (GasPriceEstimator.close ⟨7, false, true⟩)
        [Except.ok 9])
      = (⟨7, false, true⟩ : GasPriceEstimator.State).gasPrice :=
  gasPriceEstimator_close_idempotent ⟨7, false, true⟩ 2 (by omega) [Except.ok 9]

/-- C9: for a non-empty transaction list, receipt retrieval partitions it into
consecutive chunks of at most 500 transactions (every chunk except possibly the
last has exactly 500), one batch RPC request is issued per chunk, and the
concatenation of the chunks is the original list — so every transaction's
receipt is requested exactly once. -/
theorem chunkTransactions_partition (txs : List Nat) (h : txs ≠ []) :
    (∀ l ∈ chunkTransactions txs 500, l.length ≤ 500) ∧
    (∀ l ∈ (chunkTransactions txs 500).dropLast, l.length = 500) ∧
    (chunkTransactions txs 500).flatten = txs ∧
    0 < (chunkTransactions txs 500).length ∧
    ((chunkTransactions txs 500).map List.length).sum = txs.length := by
  have h1 := chunkTransactions_length_le txs.length txs (Nat.le_refl _) 499
  have h2 := chunkTransactions_full txs.length txs (Nat.le_refl _) 499
  have h3 := chunkTransactions_flatten txs.length txs (Nat.le_refl _) 499
  refine ⟨h1, h2, h3, ?_, ?_⟩
  · rcases hch : chunkTransactions txs 500 with _ | ⟨c, cs⟩
    · exfalso
      apply h
      rw [← h3]
      show (chunkTransactions txs 500).flatten = []
      rw [hch]
      rfl
    · simp
  · calc ((chunkTransactions txs 500).map List.length).sum
        = (chunkTransactions txs 500).flatten.length := (List.length_flatten _).symm
      _ = txs.length := by rw [h3]

/-- Witness for C9 on a three-transaction block (a single chunk). -/
theorem chunkTransactions_partition_witness :
    (chunkTransactions [1, 2, 3] 500).flatten = [1, 2, 3] ∧
    ((chunkTransactions [1, 2, 3] 500).map List.length).sum = ([1, 2, 3] : List Nat).length :=
  ⟨(chunkTransactions_partition [1, 2, 3] (by simp)).2.2.1,
   (chunkTransactions_partition [1, 2, 3] (by simp)).2.2.2.2⟩

/-- C10: with confirmation depth 0 the loop never queries the chain head in any
iteration; and if additionally no start block was configured, the cursor stays
unset until the first successful fetch, which is requested with a nil number
(meaning: latest block) and then moves the cursor to the fetched block's number
plus one. -/
theorem zero_confirmations_no_head_query (confirmations : Int)
    (hconf : confirmations = 0) (st : BSState)
    (inputs : List ((Except Unit Int) × (Option Int → BlockResp))) :
    (∀ out ∈ (runIters confirmations st inputs).2, out.queriedHead = false) ∧
    (∀ (head : Except Unit Int) (o : Option Int → BlockResp),
      st.curr = none → st.recent = none →
      (stepIter confirmations st head o).requested = some none ∧
      ((stepIter confirmations st head o).emitted = none →
        (stepIter confirmations st head o).state.curr = none ∧
        (stepIter confirmations st head o).state.recent = none) ∧
      (∀ e, (stepIter confirmations st head o).emitted = some e →
        (stepIter confirmations st head o).state.curr = some (e + 1))) := by
  subst hconf
  constructor
  · exact runIters_noHeadQuery 0 (Int.le_refl 0) inputs st
  · intro head o hcurr hrecent
    have hstep := stepIter_eq_noRefresh 0 st head o
      (needToGet_nonpos st.curr st.recent 0 (Int.le_refl 0))
    have hd : derivedCurr 0 st = none := by
      rw [derivedCurr_of_recent_none 0 st hrecent, hcurr]
    refine ⟨?_, ?_, ?_⟩
    · rw [hstep, fetchPhase_requested, hd]
    · intro he
      rw [hstep] at he ⊢
      exact ⟨by rw [fetchPhase_none_curr_eq 0 st o false he, hd],
        by rw [fetchPhase_recent]; exact hrecent⟩
    · intro e he
      rw [hstep] at he ⊢
      exact fetchPhase_emitted_curr 0 st o false e he

/-- Witness for C10: a run whose single block fetch asks for the latest block. -/
theorem zero_confirmations_no_head_query_witness :
    (∀ out ∈ (runIters 0 ⟨none, none, false⟩ [(Except.ok 5, exOracle)]).2,
      out.queriedHead = false) ∧
    (stepIter 0 ⟨none, none, false⟩ (Except.ok 5) exOracle).requested = some none :=
  ⟨(zero_confirmations_no_head_query 0 rfl ⟨none, none, false⟩
      [(Except.ok 5, exOracle)]).1,
   ((zero_confirmations_no_head_query 0 rfl ⟨none, none, false⟩
      [(Except.ok 5, exOracle)]).2 (Except.ok 5) exOracle rfl rfl).1⟩

end MonethaEth
